import Mathlib

/- Shallow embedding of the trading-arena backend
   (src/backend/db.py, src/backend/market.py, src/backend/app.py).

   Monetary and price values (Python floats) are modelled as exact rationals ℚ;
   unix timestamps (Python ints) as ℤ, with Python's floor division `//`
   rendered as `Int.fdiv`.  Fallible operations return the post-state together
   with `some error` on rejection and `none` on success, mirroring the
   `{ok: false, error}` / `{ok: true, ...}` dictionaries of the source. -/

/-- Helper for the model of Python `str.strip()`: drop leading whitespace of a
char list. -/
def stripLeftChars : List Char → List Char
  | [] => []
  | c :: cs => if c.isWhitespace then stripLeftChars cs else c :: cs

/-- Model of Python `str.strip()`: drop whitespace on both ends (the source
normalises `code = str(code).strip()` before using it). -/
def pystrip (s : String) : String :=
  ⟨(stripLeftChars (stripLeftChars s.data.reverse).reverse)⟩

/-- Trade side, column `side` of table `trades` (db.py: CHECK(side IN
('BUY','SELL'))). -/
inductive Side where
  | BUY
  | SELL
deriving DecidableEq, Repr

/-- Row of table `trades` (db.py init_db). -/
structure Trade where
  code : String
  ts : Int
  side : Side
  qty : ℚ
  price : ℚ
  notional : ℚ
  fee : ℚ
  cash_after : ℚ
  pos_after : ℚ
deriving Repr

/-- Row of table `candles` (db.py init_db); `ts` is the bucket start.  The
source's column `open` is a Lean keyword, rendered as field `open_`. -/
structure Candle where
  ts : Int
  open_ : ℚ
  high : ℚ
  low : ℚ
  close : ℚ
deriving DecidableEq, Repr

/-- Row of table `players` (db.py init_db), keyed externally by `code`. -/
structure Player where
  nick : String
  cash : ℚ
  pos : ℚ
  created_at : Int
  updated_at : Int
deriving Repr

/-- MarketConfig (market.py) restricted to the fields the verified paths
read. -/
structure MarketConfig where
  candle_seconds : Int
  start_price : ℚ
  fee_rate : ℚ
  min_equity : ℚ
  leverage_max : ℚ

/-- In-memory engine state: the mutable fields of MarketEngine (market.py). -/
structure EngineState where
  pool_x : ℚ
  pool_y : ℚ
  pool_k : ℚ
  price : ℚ
  candle : Candle
  started : Bool

/-- The persistent world a trade call reads and writes: engine state, the
players table (code ↦ row), the append-only trades table, and the candles
table (ts ↦ row). -/
structure World where
  eng : EngineState
  players : String → Option Player
  trades : List Trade
  candles : Int → Option Candle

/-- db.upsert_candle: insert keyed by ts, overwriting all OHLC fields on
conflict. -/
def upsert_candle (store : Int → Option Candle) (c : Candle) :
    Int → Option Candle :=
  fun t => if t = c.ts then some c else store t

/-- db.upsert_player: on first insert create the row with cash = initial_cash
and pos = 0; on conflict update only nick and updated_at. -/
def upsert_player (ps : String → Option Player) (code nick : String)
    (initial_cash : ℚ) (now : Int) : String → Option Player :=
  fun c =>
    if c = code then
      match ps code with
      | none => some ⟨nick, initial_cash, 0, now, now⟩
      | some p => some { p with nick := nick, updated_at := now }
    else ps c

/-- MarketEngine._equity (market.py). -/
def _equity (cash pos price : ℚ) : ℚ := cash + pos * price

/-- MarketEngine._margin_ok (market.py): equity floor, positive-leverage gate,
and exposure bound with the source's 1e-9 tolerance. -/
def _margin_ok (cfg : MarketConfig) (cash_after pos_after price_after : ℚ) :
    Bool :=
  let equity := _equity cash_after pos_after price_after
  if equity < cfg.min_equity then false
  else if cfg.leverage_max ≤ 0 then false
  else decide (|pos_after| * price_after ≤ equity * cfg.leverage_max + 1e-9)

/-- MarketEngine._touch_candle (market.py): returns the updated live candle
and, when the bucket changed, the closed candle row upserted to storage. -/
def _touch_candle (cs : Int) (cndl : Candle) (now_s : Int) (price : ℚ) :
    Candle × Option Candle :=
  let csv := max 1 cs
  let ts_bucket := now_s.fdiv csv * csv
  if ts_bucket ≠ cndl.ts then
    (⟨ts_bucket, price, price, price, price⟩, some cndl)
  else
    (⟨cndl.ts, cndl.open_,
      if price > cndl.high then price else cndl.high,
      if price < cndl.low then price else cndl.low,
      price⟩, none)

/-- Outcome of a market order: post-call world, and `some error` iff the trade
was rejected. -/
abbrev TradeOutcome := World × Option String

/-- MarketEngine.market_buy (market.py): guards in source order, AMM update,
post-trade margin check with literal revert-on-failure, then wallet update,
trade insert and candle touch on success. -/
def market_buy (cfg : MarketConfig) (w : World) (code0 : String) (usd_in : ℚ)
    (now : Int) : TradeOutcome :=
  let code := pystrip code0
  if code = "" then (w, some "code inválido")
  else if usd_in ≤ 0 then (w, some "usd_in inválido")
  else if w.eng.started = false then
    (w, some "mercado não iniciado (start_game)")
  else if w.eng.pool_x ≤ 0 ∨ w.eng.pool_y ≤ 0 ∨ w.eng.pool_k ≤ 0 then
    (w, some "pool inválido")
  else
    match w.players code with
    | none => (w, some "player não existe")
    | some p =>
      if p.cash < usd_in then (w, some "saldo USD insuficiente")
      else
        let fee := usd_in * cfg.fee_rate
        let usd_effective := usd_in - fee
        if usd_effective ≤ 0 then (w, some "usd_in pequeno demais (fee)")
        else
          let y_new := w.eng.pool_y + usd_effective
          let x_new := w.eng.pool_k / y_new
          let rich_out := w.eng.pool_x - x_new
          if rich_out ≤ 0 ∨ x_new ≤ 0 then (w, some "liquidez insuficiente")
          else
            let price1 := y_new / x_new
            let trade_price := usd_effective / rich_out
            let notional := usd_in
            let cash_after := p.cash - usd_in
            let pos_after := p.pos + rich_out
            if _margin_ok cfg cash_after pos_after price1 = false then
              let y_rev := y_new - usd_effective
              let x_rev := x_new + rich_out
              ({ w with eng := { w.eng with
                  pool_y := y_rev, pool_x := x_rev, price := y_rev / x_rev } },
               some "margem insuficiente / alavancagem excedida")
            else
              let tc := _touch_candle cfg.candle_seconds w.eng.candle now price1
              ({ eng :=
                  { pool_x := x_new, pool_y := y_new, pool_k := w.eng.pool_k,
                    price := price1, candle := tc.1, started := w.eng.started },
                 players := fun c =>
                   if c = code then
                     some { p with cash := cash_after, pos := pos_after,
                                   updated_at := now }
                   else w.players c,
                 trades := w.trades ++
                   [⟨code, now, Side.BUY, rich_out, trade_price, notional, fee,
                     cash_after, pos_after⟩],
                 candles := match tc.2 with
                   | some r => upsert_candle w.candles r
                   | none => w.candles }, none)

/-- MarketEngine.market_sell (market.py): symmetric to market_buy; fee on the
gross USD output, position may go negative (short). -/
def market_sell (cfg : MarketConfig) (w : World) (code0 : String)
    (rich_in : ℚ) (now : Int) : TradeOutcome :=
  let code := pystrip code0
  if code = "" then (w, some "code inválido")
  else if rich_in ≤ 0 then (w, some "rich_in inválido")
  else if w.eng.started = false then
    (w, some "mercado não iniciado (start_game)")
  else if w.eng.pool_x ≤ 0 ∨ w.eng.pool_y ≤ 0 ∨ w.eng.pool_k ≤ 0 then
    (w, some "pool inválido")
  else
    match w.players code with
    | none => (w, some "player não existe")
    | some p =>
      let x_new := w.eng.pool_x + rich_in
      let y_new := w.eng.pool_k / x_new
      let usd_out_gross := w.eng.pool_y - y_new
      if usd_out_gross ≤ 0 ∨ y_new ≤ 0 then (w, some "liquidez insuficiente")
      else
        let fee := usd_out_gross * cfg.fee_rate
        let usd_out := usd_out_gross - fee
        if usd_out ≤ 0 then (w, some "resultado pequeno demais (fee)")
        else
          let price1 := y_new / x_new
          let trade_price := usd_out / rich_in
          let notional := usd_out
          let cash_after := p.cash + usd_out
          let pos_after := p.pos - rich_in
          if _margin_ok cfg cash_after pos_after price1 = false then
            let x_rev := x_new - rich_in
            let y_rev := y_new + usd_out_gross
            ({ w with eng := { w.eng with
                pool_x := x_rev, pool_y := y_rev, price := y_rev / x_rev } },
             some "margem insuficiente / alavancagem excedida")
          else
            let tc := _touch_candle cfg.candle_seconds w.eng.candle now price1
            ({ eng :=
                { pool_x := x_new, pool_y := y_new, pool_k := w.eng.pool_k,
                  price := price1, candle := tc.1, started := w.eng.started },
               players := fun c =>
                 if c = code then
                   some { p with cash := cash_after, pos := pos_after,
                                 updated_at := now }
                 else w.players c,
               trades := w.trades ++
                 [⟨code, now, Side.SELL, rich_in, trade_price, notional, fee,
                   cash_after, pos_after⟩],
               candles := match tc.2 with
                 | some r => upsert_candle w.candles r
                 | none => w.candles }, none)

/-- Replay state of app._compute_stats_from_trades. -/
structure StatsState where
  pos : ℚ
  avg : ℚ
  realized : ℚ
deriving Repr

/-- One iteration of app._compute_stats_from_trades's replay loop (app.py):
BUY adds to a long or covers a short; SELL adds to a short or reduces a long;
the 1e-12 flat threshold and the leftover flip follow the source order. -/
def statsStep (st : StatsState) (t : Trade) : StatsState :=
  match t.side with
  | Side.BUY =>
    if 0 ≤ st.pos then
      let new_pos := st.pos + t.qty
      let avg :=
        if new_pos ≠ 0 then (st.pos * st.avg + t.qty * t.price) / new_pos else 0
      { pos := new_pos, avg := avg, realized := st.realized - t.fee }
    else
      let cover := min t.qty |st.pos|
      let realized := st.realized + (st.avg - t.price) * cover
      let pos1 := st.pos + cover
      let pos2 := if |pos1| < 1e-12 then 0 else pos1
      let avg2 := if |pos1| < 1e-12 then 0 else st.avg
      let leftover := t.qty - cover
      let pos3 := if leftover > 0 then leftover else pos2
      let avg3 := if leftover > 0 then t.price else avg2
      { pos := pos3, avg := avg3, realized := realized - t.fee }
  | Side.SELL =>
    if st.pos ≤ 0 then
      let new_pos := st.pos - t.qty
      let abs_old := |st.pos|
      let abs_new := |new_pos|
      let avg :=
        if abs_new ≠ 0 then (abs_old * st.avg + t.qty * t.price) / abs_new
        else 0
      { pos := new_pos, avg := avg, realized := st.realized - t.fee }
    else
      let close := min t.qty st.pos
      let realized := st.realized + (t.price - st.avg) * close
      let pos1 := st.pos - close
      let pos2 := if |pos1| < 1e-12 then 0 else pos1
      let avg2 := if |pos1| < 1e-12 then 0 else st.avg
      let leftover := t.qty - close
      let pos3 := if leftover > 0 then -leftover else pos2
      let avg3 := if leftover > 0 then t.price else avg2
      { pos := pos3, avg := avg3, realized := realized - t.fee }

/-- app._compute_stats_from_trades: pure replay of a trade log in id order,
returning (avg, realized, pos); the short-TTL cache of the source only
memoises this pure value. -/
def _compute_stats_from_trades (trades : List Trade) : ℚ × ℚ × ℚ :=
  let st := trades.foldl statsStep ⟨0, 0, 0⟩
  (st.avg, st.realized, st.pos)

/-- Grouping loop of app._aggregate_candles: carries the open group
(cur_bucket, o, h, l, c) and flushes it whenever the next row's bucket
differs. -/
def aggLoop (tf : Int) (curB : Int) (o h l c : ℚ) :
    List Candle → List Candle
  | [] => [⟨curB, o, h, l, c⟩]
  | r :: rs =>
    let bucket := r.ts.fdiv tf * tf
    if bucket ≠ curB then
      ⟨curB, o, h, l, c⟩ :: aggLoop tf bucket r.open_ r.high r.low r.close rs
    else
      aggLoop tf curB o (max h r.high) (min l r.low) r.close rs

/-- app._aggregate_candles: group ascending 1s rows by
bucket = (ts // tf) * tf with tf clamped to at least 1; each emitted row
carries the group's bucket as its timestamp (the source's `time` field). -/
def _aggregate_candles (raw : List Candle) (tf_seconds : Int) : List Candle :=
  match raw with
  | [] => []
  | r :: rs =>
    let tf := max 1 tf_seconds
    aggLoop tf (r.ts.fdiv tf * tf) r.open_ r.high r.low r.close rs

/-- One generated candle of MarketEngine.seed_history_if_needed's loop
(market.py); `step` stands for the draw random.uniform(-1,1) * seed_step_pct,
over which all results are universally quantified. -/
def seedCandle (start_price last_close step : ℚ) (ts : Int) : Candle :=
  let mr := (start_price - last_close) / start_price * 0.015
  let ret := step + mr
  let close := max 0.0001 (last_close * (1 + ret))
  let o := last_close
  let h := max o close
  let l := min o close
  ⟨ts, o, h, l, close⟩

/-- Candle well-formedness: low ≤ open, close and open, close ≤ high. -/
def wellFormedCandle (c : Candle) : Prop :=
  c.low ≤ c.open_ ∧ c.low ≤ c.close ∧ c.open_ ≤ c.high ∧ c.close ≤ c.high

/- ===== Helper lemmas shared by the claim theorems ===== -/

/-- Reverting the pool fields to values equal to the originals restores the
whole world. -/
lemma world_revert_eq (w : World) (Y X P : ℚ) (hY : Y = w.eng.pool_y)
    (hX : X = w.eng.pool_x) (hP : P = w.eng.price) :
    ({ w with eng :=
        { w.eng with pool_y := Y, pool_x := X, price := P } } : World) = w := by
  cases w with
  | mk eng pl tr ca =>
    cases eng
    subst hY hX hP
    rfl

/-- Inversion of a passing margin check: equity floor, positive leverage, and
the exposure bound with the source's 1e-9 tolerance. -/
lemma margin_ok_spec (cfg : MarketConfig) (a b c : ℚ)
    (h : _margin_ok cfg a b c = true) :
    cfg.min_equity ≤ _equity a b c ∧ 0 < cfg.leverage_max ∧
      |b| * c ≤ _equity a b c * cfg.leverage_max + 1e-9 := by
  simp only [_margin_ok] at h
  split_ifs at h with h1 h2
  exact ⟨not_lt.mp h1, not_le.mp h2, of_decide_eq_true h⟩

set_option maxHeartbeats 4000000 in
/-- Inversion of an accepted market_buy: all guards passed, and the post-state
pool, price and appended trade row are the AMM-buy values. -/
lemma market_buy_accepted (cfg : MarketConfig) (w : World) (code0 : String)
    (q : ℚ) (now : Int) (h : (market_buy cfg w code0 q now).2 = none) :
    ∃ p, w.players (pystrip code0) = some p ∧
      0 < q ∧ w.eng.started = true ∧
      0 < w.eng.pool_x ∧ 0 < w.eng.pool_y ∧ 0 < w.eng.pool_k ∧
      ¬ p.cash < q ∧
      0 < q - q * cfg.fee_rate ∧
      0 < w.eng.pool_x -
          w.eng.pool_k / (w.eng.pool_y + (q - q * cfg.fee_rate)) ∧
      0 < w.eng.pool_k / (w.eng.pool_y + (q - q * cfg.fee_rate)) ∧
      _margin_ok cfg (p.cash - q)
        (p.pos + (w.eng.pool_x -
          w.eng.pool_k / (w.eng.pool_y + (q - q * cfg.fee_rate))))
        ((w.eng.pool_y + (q - q * cfg.fee_rate)) /
          (w.eng.pool_k / (w.eng.pool_y + (q - q * cfg.fee_rate)))) = true ∧
      (market_buy cfg w code0 q now).1.eng.pool_x =
        w.eng.pool_k / (w.eng.pool_y + (q - q * cfg.fee_rate)) ∧
      (market_buy cfg w code0 q now).1.eng.pool_y =
        w.eng.pool_y + (q - q * cfg.fee_rate) ∧
      (market_buy cfg w code0 q now).1.eng.pool_k = w.eng.pool_k ∧
      (market_buy cfg w code0 q now).1.eng.price =
        (w.eng.pool_y + (q - q * cfg.fee_rate)) /
          (w.eng.pool_k / (w.eng.pool_y + (q - q * cfg.fee_rate))) ∧
      (market_buy cfg w code0 q now).1.trades = w.trades ++
        [⟨pystrip code0, now, Side.BUY,
          w.eng.pool_x - w.eng.pool_k / (w.eng.pool_y + (q - q * cfg.fee_rate)),
          (q - q * cfg.fee_rate) /
            (w.eng.pool_x -
              w.eng.pool_k / (w.eng.pool_y + (q - q * cfg.fee_rate))),
          q, q * cfg.fee_rate, p.cash - q,
          p.pos + (w.eng.pool_x -
            w.eng.pool_k / (w.eng.pool_y + (q - q * cfg.fee_rate)))⟩] := by
  cases hpl : w.players (pystrip code0) with
  | none =>
    simp only [market_buy, hpl] at h
    split_ifs at h
  | some p =>
    refine ⟨p, rfl, ?_⟩
    simp only [market_buy, hpl] at h ⊢
    split_ifs at h ⊢ with h1 h2 h3 h4 h5 h6 h7 h8
    have hst : w.eng.started = true := by simpa using h3
    have hm := h8
    simp only [Bool.not_eq_false] at hm
    push_neg at h4 h7
    exact ⟨not_le.mp h2, hst, h4.1, h4.2.1, h4.2.2, h5, not_le.mp h6,
      h7.1, h7.2, hm, rfl, rfl, rfl, rfl, rfl⟩

set_option maxHeartbeats 4000000 in
/-- Inversion of an accepted market_sell: all guards passed, and the
post-state pool, price and appended trade row are the AMM-sell values. -/
lemma market_sell_accepted (cfg : MarketConfig) (w : World) (code0 : String)
    (q : ℚ) (now : Int) (h : (market_sell cfg w code0 q now).2 = none) :
    ∃ p, w.players (pystrip code0) = some p ∧
      0 < q ∧ w.eng.started = true ∧
      0 < w.eng.pool_x ∧ 0 < w.eng.pool_y ∧ 0 < w.eng.pool_k ∧
      0 < w.eng.pool_y - w.eng.pool_k / (w.eng.pool_x + q) ∧
      0 < w.eng.pool_k / (w.eng.pool_x + q) ∧
      0 < (w.eng.pool_y - w.eng.pool_k / (w.eng.pool_x + q)) -
          (w.eng.pool_y - w.eng.pool_k / (w.eng.pool_x + q)) * cfg.fee_rate ∧
      _margin_ok cfg
        (p.cash + ((w.eng.pool_y - w.eng.pool_k / (w.eng.pool_x + q)) -
          (w.eng.pool_y - w.eng.pool_k / (w.eng.pool_x + q)) * cfg.fee_rate))
        (p.pos - q)
        ((w.eng.pool_k / (w.eng.pool_x + q)) / (w.eng.pool_x + q)) = true ∧
      (market_sell cfg w code0 q now).1.eng.pool_x = w.eng.pool_x + q ∧
      (market_sell cfg w code0 q now).1.eng.pool_y =
        w.eng.pool_k / (w.eng.pool_x + q) ∧
      (market_sell cfg w code0 q now).1.eng.pool_k = w.eng.pool_k ∧
      (market_sell cfg w code0 q now).1.eng.price =
        (w.eng.pool_k / (w.eng.pool_x + q)) / (w.eng.pool_x + q) ∧
      (market_sell cfg w code0 q now).1.trades = w.trades ++
        [⟨pystrip code0, now, Side.SELL, q,
          ((w.eng.pool_y - w.eng.pool_k / (w.eng.pool_x + q)) -
            (w.eng.pool_y - w.eng.pool_k / (w.eng.pool_x + q)) *
              cfg.fee_rate) / q,
          (w.eng.pool_y - w.eng.pool_k / (w.eng.pool_x + q)) -
            (w.eng.pool_y - w.eng.pool_k / (w.eng.pool_x + q)) * cfg.fee_rate,
          (w.eng.pool_y - w.eng.pool_k / (w.eng.pool_x + q)) * cfg.fee_rate,
          p.cash + ((w.eng.pool_y - w.eng.pool_k / (w.eng.pool_x + q)) -
            (w.eng.pool_y - w.eng.pool_k / (w.eng.pool_x + q)) * cfg.fee_rate),
          p.pos - q⟩] := by
  cases hpl : w.players (pystrip code0) with
  | none =>
    simp only [market_sell, hpl] at h
    split_ifs at h
  | some p =>
    refine ⟨p, rfl, ?_⟩
    simp only [market_sell, hpl] at h ⊢
    split_ifs at h ⊢ with h1 h2 h3 h4 h5 h6 h7
    have hst : w.eng.started = true := by simpa using h3
    have hm := h7
    simp only [Bool.not_eq_false] at hm
    push_neg at h4 h5
    exact ⟨not_le.mp h2, hst, h4.1, h4.2.1, h4.2.2, h5.1, h5.2,
      not_le.mp h6, hm, rfl, rfl, rfl, rfl, rfl⟩

/- ===== Concrete instances used by the witnesses ===== -/

/-- Concrete configuration: fee 0, min_equity 0, leverage_max 3 (the deployed
config at the bottom of market.py, with the spec's 200k liquidity scenario). -/
def cfgW : MarketConfig :=
  { candle_seconds := 1, start_price := 100, fee_rate := 0,
    min_equity := 0, leverage_max := 3 }

/-- Concrete player row with the app.py initial cash. -/
def playerW : Player :=
  { nick := "A", cash := 10000, pos := 0, created_at := 0, updated_at := 0 }

/-- Started world with the spec's S1 pool: x = 2000, y = 200000, k = 4e8. -/
def wStarted : World :=
  { eng := { pool_x := 2000, pool_y := 200000, pool_k := 400000000,
             price := 100, candle := ⟨0, 100, 100, 100, 100⟩,
             started := true },
    players := fun _ => some playerW,
    trades := [],
    candles := fun _ => none }

/-- World before start_game: empty pool, price 0, not started. -/
def wNotStarted : World :=
  { eng := { pool_x := 0, pool_y := 0, pool_k := 0, price := 0,
             candle := ⟨0, 100, 100, 100, 100⟩, started := false },
    players := fun _ => none,
    trades := [],
    candles := fun _ => none }

set_option maxHeartbeats 1600000 in
/-- C1: every rejected market_buy or market_sell (any of the guard rejections
or the margin revert) leaves the whole world — pool reserves, pool_k, price,
candle, players table and trade log — exactly equal to the pre-trade state,
assuming the engine invariant price = pool_y / pool_x. -/
theorem C1_rejected_trade_is_pure (cfg : MarketConfig) (w : World)
    (code0 : String) (q : ℚ) (now : Int) (err : String)
    (hp : w.eng.price = w.eng.pool_y / w.eng.pool_x) :
    ((market_buy cfg w code0 q now).2 = some err →
      (market_buy cfg w code0 q now).1 = w) ∧
    ((market_sell cfg w code0 q now).2 = some err →
      (market_sell cfg w code0 q now).1 = w) := by
  constructor
  · cases hpl : w.players (pystrip code0) with
    | none =>
      simp only [market_buy, hpl]
      split_ifs <;> intro h <;> rfl
    | some p =>
      simp only [market_buy, hpl]
      split_ifs <;> intro h <;>
        first
          | rfl
          | exact h.elim
          | apply world_revert_eq w _ _ _ (by ring) (by ring) (by rw [hp]; ring)
  · cases hpl : w.players (pystrip code0) with
    | none =>
      simp only [market_sell, hpl]
      split_ifs <;> intro h <;> rfl
    | some p =>
      simp only [market_sell, hpl]
      split_ifs <;> intro h <;>
        first
          | rfl
          | exact h.elim
          | apply world_revert_eq w _ _ _ (by ring) (by ring) (by rw [hp]; ring)

/-- Witness for C1: on the not-started world the price invariant holds, a buy
and a sell are both rejected, and the post-state equals the pre-state. -/
theorem C1_rejected_trade_is_pure_witness :
    wNotStarted.eng.price = wNotStarted.eng.pool_y / wNotStarted.eng.pool_x ∧
    (market_buy cfgW wNotStarted "abcd" 5 0).1 = wNotStarted ∧
    (market_sell cfgW wNotStarted "abcd" 5 0).1 = wNotStarted := by
  have hp : wNotStarted.eng.price =
      wNotStarted.eng.pool_y / wNotStarted.eng.pool_x := by
    norm_num [wNotStarted]
  have hfull := C1_rejected_trade_is_pure cfgW wNotStarted "abcd" 5 0
    "mercado não iniciado (start_game)" hp
  exact ⟨hp, hfull.1 rfl, hfull.2 rfl⟩

/-- C2: with usd_in > 0 on a started engine with positive reserves, market_buy
rejects when usd_eff ≤ 0 or when the AMM output is non-positive, and an
accepted buy sets y' = y + usd_eff, x' = k / y', has rich_out > 0 and x' > 0,
and records qty = rich_out, fee = usd_in * fee_rate and effective price
usd_eff / rich_out in the appended trade row. -/
theorem C2_buy_amm_arithmetic (cfg : MarketConfig) (w : World) (code0 : String)
    (q : ℚ) (now : Int) (husd : 0 < q) (hstart : w.eng.started = true)
    (hx : 0 < w.eng.pool_x) (hy : 0 < w.eng.pool_y) (hk : 0 < w.eng.pool_k) :
    (q - q * cfg.fee_rate ≤ 0 → (market_buy cfg w code0 q now).2 ≠ none) ∧
    (w.eng.pool_x - w.eng.pool_k / (w.eng.pool_y + (q - q * cfg.fee_rate)) ≤ 0 ∨
       w.eng.pool_k / (w.eng.pool_y + (q - q * cfg.fee_rate)) ≤ 0 →
      (market_buy cfg w code0 q now).2 ≠ none) ∧
    ((market_buy cfg w code0 q now).2 = none →
      (market_buy cfg w code0 q now).1.eng.pool_y =
        w.eng.pool_y + (q - q * cfg.fee_rate) ∧
      (market_buy cfg w code0 q now).1.eng.pool_x =
        w.eng.pool_k / (w.eng.pool_y + (q - q * cfg.fee_rate)) ∧
      0 < w.eng.pool_x -
          w.eng.pool_k / (w.eng.pool_y + (q - q * cfg.fee_rate)) ∧
      0 < w.eng.pool_k / (w.eng.pool_y + (q - q * cfg.fee_rate)) ∧
      ∃ t : Trade, (market_buy cfg w code0 q now).1.trades = w.trades ++ [t] ∧
        t.fee = q * cfg.fee_rate ∧
        t.qty = w.eng.pool_x -
          w.eng.pool_k / (w.eng.pool_y + (q - q * cfg.fee_rate)) ∧
        t.price = (q - q * cfg.fee_rate) /
          (w.eng.pool_x -
            w.eng.pool_k / (w.eng.pool_y + (q - q * cfg.fee_rate)))) := by
  refine ⟨?_, ?_, ?_⟩
  · intro hle hnone
    obtain ⟨p, -, -, -, -, -, -, -, heff, -⟩ :=
      market_buy_accepted cfg w code0 q now hnone
    linarith
  · intro hor hnone
    obtain ⟨p, -, -, -, -, -, -, -, -, hrout, hxnew, -⟩ :=
      market_buy_accepted cfg w code0 q now hnone
    rcases hor with hle | hle <;> linarith
  · intro h
    obtain ⟨p, hpl, hq, hst, hx', hy', hk', hcash, heff, hrout, hxnew, hm,
      e1, e2, e3, e4, e5⟩ := market_buy_accepted cfg w code0 q now h
    exact ⟨e2, e1, hrout, hxnew, ⟨_, e5, rfl, rfl, rfl⟩⟩

/-- Witness for C2: the S1 trade (buy 1000 USD into the 2000/200000 pool) is
accepted and satisfies the stated AMM arithmetic. -/
theorem C2_buy_amm_arithmetic_witness :
    (0:ℚ) < 1000 ∧
    (market_buy cfgW wStarted "alice1" 1000 7).2 = none ∧
    (market_buy cfgW wStarted "alice1" 1000 7).1.eng.pool_y =
      wStarted.eng.pool_y + (1000 - 1000 * cfgW.fee_rate) ∧
    (market_buy cfgW wStarted "alice1" 1000 7).1.eng.pool_x =
      wStarted.eng.pool_k /
        (wStarted.eng.pool_y + (1000 - 1000 * cfgW.fee_rate)) := by
  have hs : pystrip "alice1" = "alice1" := by decide
  have hne : ("alice1" : String) ≠ "" := by decide
  have hacc : (market_buy cfgW wStarted "alice1" 1000 7).2 = none := by
    norm_num [market_buy, hs, hne, _margin_ok, _equity, wStarted, cfgW,
      playerW, abs_of_nonneg, abs_of_nonpos]
  have h := (C2_buy_amm_arithmetic cfgW wStarted "alice1" 1000 7
    (by norm_num) rfl (by norm_num [wStarted]) (by norm_num [wStarted])
    (by norm_num [wStarted])).2.2 hacc
  exact ⟨by norm_num, hacc, h.1, h.2.1⟩

/-- C3: every accepted buy or sell satisfies the post-trade margin gate —
equity at the post-trade price is at least min_equity and the exposure is
bounded by equity · leverage_max within 1e-6 — and with leverage_max ≤ 0
every trade is rejected. -/
theorem C3_margin_gate (cfg : MarketConfig) (w : World) (code0 : String)
    (q : ℚ) (now : Int) :
    ((market_buy cfg w code0 q now).2 = none →
      ∃ t : Trade, (market_buy cfg w code0 q now).1.trades = w.trades ++ [t] ∧
        cfg.min_equity ≤
          t.cash_after + t.pos_after * (market_buy cfg w code0 q now).1.eng.price ∧
        |t.pos_after| * (market_buy cfg w code0 q now).1.eng.price ≤
          (t.cash_after + t.pos_after *
            (market_buy cfg w code0 q now).1.eng.price) * cfg.leverage_max +
            1e-6) ∧
    ((market_sell cfg w code0 q now).2 = none →
      ∃ t : Trade, (market_sell cfg w code0 q now).1.trades = w.trades ++ [t] ∧
        cfg.min_equity ≤
          t.cash_after + t.pos_after * (market_sell cfg w code0 q now).1.eng.price ∧
        |t.pos_after| * (market_sell cfg w code0 q now).1.eng.price ≤
          (t.cash_after + t.pos_after *
            (market_sell cfg w code0 q now).1.eng.price) * cfg.leverage_max +
            1e-6) ∧
    (cfg.leverage_max ≤ 0 →
      (market_buy cfg w code0 q now).2 ≠ none ∧
      (market_sell cfg w code0 q now).2 ≠ none) := by
  refine ⟨?_, ?_, ?_⟩
  · intro h
    obtain ⟨p, hpl, hq, hst, hx, hy, hk, hcash, heff, hrout, hxnew, hm,
      e1, e2, e3, e4, e5⟩ := market_buy_accepted cfg w code0 q now h
    obtain ⟨hmin, hlev, hexp⟩ := margin_ok_spec cfg _ _ _ hm
    refine ⟨_, e5, ?_, ?_⟩
    · rw [e4]
      exact hmin
    · rw [e4]
      have : (1e-9 : ℚ) ≤ 1e-6 := by norm_num
      unfold _equity at hexp
      dsimp only
      linarith
  · intro h
    obtain ⟨p, hpl, hq, hst, hx, hy, hk, hgross, hynew, hout, hm,
      e1, e2, e3, e4, e5⟩ := market_sell_accepted cfg w code0 q now h
    obtain ⟨hmin, hlev, hexp⟩ := margin_ok_spec cfg _ _ _ hm
    refine ⟨_, e5, ?_, ?_⟩
    · rw [e4]
      exact hmin
    · rw [e4]
      have : (1e-9 : ℚ) ≤ 1e-6 := by norm_num
      unfold _equity at hexp
      dsimp only
      linarith
  · intro hle
    constructor
    · intro h
      obtain ⟨p, hpl, hq, hst, hx, hy, hk, hcash, heff, hrout, hxnew, hm, -⟩ :=
        market_buy_accepted cfg w code0 q now h
      obtain ⟨-, hlev, -⟩ := margin_ok_spec cfg _ _ _ hm
      linarith
    · intro h
      obtain ⟨p, hpl, hq, hst, hx, hy, hk, hgross, hynew, hout, hm, -⟩ :=
        market_sell_accepted cfg w code0 q now h
      obtain ⟨-, hlev, -⟩ := margin_ok_spec cfg _ _ _ hm
      linarith

/-- Witness for C3: the theorem applied to the S1 pool, with the accepted-buy
hypothesis discharged on the concrete accepted trade. -/
theorem C3_margin_gate_witness :
    (market_buy cfgW wStarted "alice1" 1000 7).2 = none ∧
    ∃ t : Trade,
      (market_buy cfgW wStarted "alice1" 1000 7).1.trades =
        wStarted.trades ++ [t] ∧
      cfgW.min_equity ≤
        t.cash_after + t.pos_after *
          (market_buy cfgW wStarted "alice1" 1000 7).1.eng.price ∧
      |t.pos_after| * (market_buy cfgW wStarted "alice1" 1000 7).1.eng.price ≤
        (t.cash_after + t.pos_after *
          (market_buy cfgW wStarted "alice1" 1000 7).1.eng.price) *
            cfgW.leverage_max + 1e-6 := by
  have hs : pystrip "alice1" = "alice1" := by decide
  have hne : ("alice1" : String) ≠ "" := by decide
  have hacc : (market_buy cfgW wStarted "alice1" 1000 7).2 = none := by
    norm_num [market_buy, hs, hne, _margin_ok, _equity, wStarted, cfgW,
      playerW, abs_of_nonneg, abs_of_nonpos]
  exact ⟨hacc, (C3_margin_gate cfgW wStarted "alice1" 1000 7).1 hacc⟩

/-- C4: an accepted BUY debits exactly usd_in (fee included) from cash, an
accepted SELL credits exactly usd_out_gross · (1 − fee_rate); cash strictly
decreases on BUY and strictly increases on SELL. -/
theorem C4_cash_flow_law (cfg : MarketConfig) (w : World) (code0 : String)
    (q : ℚ) (now : Int) :
    ((market_buy cfg w code0 q now).2 = none →
      ∃ p t, w.players (pystrip code0) = some p ∧
        (market_buy cfg w code0 q now).1.trades = w.trades ++ [t] ∧
        t.side = Side.BUY ∧
        t.cash_after = p.cash - q ∧
        t.cash_after < p.cash) ∧
    ((market_sell cfg w code0 q now).2 = none →
      ∃ p t, w.players (pystrip code0) = some p ∧
        (market_sell cfg w code0 q now).1.trades = w.trades ++ [t] ∧
        t.side = Side.SELL ∧
        t.cash_after = p.cash +
          (w.eng.pool_y - w.eng.pool_k / (w.eng.pool_x + q)) *
            (1 - cfg.fee_rate) ∧
        p.cash < t.cash_after) := by
  constructor
  · intro h
    obtain ⟨p, hpl, hq, hst, hx, hy, hk, hcash, heff, hrout, hxnew, hm,
      e1, e2, e3, e4, e5⟩ := market_buy_accepted cfg w code0 q now h
    exact ⟨p, _, hpl, e5, rfl, rfl, by dsimp only; linarith⟩
  · intro h
    obtain ⟨p, hpl, hq, hst, hx, hy, hk, hgross, hynew, hout, hm,
      e1, e2, e3, e4, e5⟩ := market_sell_accepted cfg w code0 q now h
    refine ⟨p, _, hpl, e5, rfl, by dsimp only; ring, by dsimp only; linarith⟩

/-- Witness for C4: instantiated on the S1 accepted buy. -/
theorem C4_cash_flow_law_witness :
    (market_buy cfgW wStarted "alice1" 1000 7).2 = none ∧
    ∃ p t, wStarted.players (pystrip "alice1") = some p ∧
      (market_buy cfgW wStarted "alice1" 1000 7).1.trades =
        wStarted.trades ++ [t] ∧
      t.side = Side.BUY ∧
      t.cash_after = p.cash - 1000 ∧
      t.cash_after < p.cash := by
  have hs : pystrip "alice1" = "alice1" := by decide
  have hne : ("alice1" : String) ≠ "" := by decide
  have hacc : (market_buy cfgW wStarted "alice1" 1000 7).2 = none := by
    norm_num [market_buy, hs, hne, _margin_ok, _equity, wStarted, cfgW,
      playerW, abs_of_nonneg, abs_of_nonpos]
  exact ⟨hacc, (C4_cash_flow_law cfgW wStarted "alice1" 1000 7).1 hacc⟩

/-- C5: after any accepted trade the stored pool_k equals the product of the
updated reserves, the relative drift of the reserve product across the trade
is at most 1e-9 (identically zero over exact rationals), and the engine price
equals pool_y / pool_x, assuming the pre-trade invariant k = x·y. -/
theorem C5_constant_product (cfg : MarketConfig) (w : World) (code0 : String)
    (q : ℚ) (now : Int)
    (hk : w.eng.pool_k = w.eng.pool_x * w.eng.pool_y) :
    ((market_buy cfg w code0 q now).2 = none →
      (market_buy cfg w code0 q now).1.eng.pool_k =
        (market_buy cfg w code0 q now).1.eng.pool_x *
          (market_buy cfg w code0 q now).1.eng.pool_y ∧
      |(market_buy cfg w code0 q now).1.eng.pool_x *
          (market_buy cfg w code0 q now).1.eng.pool_y -
        w.eng.pool_x * w.eng.pool_y| / (w.eng.pool_x * w.eng.pool_y) ≤ 1e-9 ∧
      (market_buy cfg w code0 q now).1.eng.price =
        (market_buy cfg w code0 q now).1.eng.pool_y /
          (market_buy cfg w code0 q now).1.eng.pool_x) ∧
    ((market_sell cfg w code0 q now).2 = none →
      (market_sell cfg w code0 q now).1.eng.pool_k =
        (market_sell cfg w code0 q now).1.eng.pool_x *
          (market_sell cfg w code0 q now).1.eng.pool_y ∧
      |(market_sell cfg w code0 q now).1.eng.pool_x *
          (market_sell cfg w code0 q now).1.eng.pool_y -
        w.eng.pool_x * w.eng.pool_y| / (w.eng.pool_x * w.eng.pool_y) ≤ 1e-9 ∧
      (market_sell cfg w code0 q now).1.eng.price =
        (market_sell cfg w code0 q now).1.eng.pool_y /
          (market_sell cfg w code0 q now).1.eng.pool_x) := by
  constructor
  · intro h
    obtain ⟨p, hpl, hq, hst, hx, hy, hkpos, hcash, heff, hrout, hxnew, hm,
      e1, e2, e3, e4, e5⟩ := market_buy_accepted cfg w code0 q now h
    have hy' : w.eng.pool_y + (q - q * cfg.fee_rate) ≠ 0 := by linarith
    have hprod : (market_buy cfg w code0 q now).1.eng.pool_x *
        (market_buy cfg w code0 q now).1.eng.pool_y = w.eng.pool_k := by
      rw [e1, e2, div_mul_cancel₀ _ hy']
    refine ⟨by rw [hprod, e3], ?_, by rw [e1, e2, e4]⟩
    rw [hprod, hk, sub_self, abs_zero, zero_div]
    norm_num
  · intro h
    obtain ⟨p, hpl, hq, hst, hx, hy, hkpos, hgross, hynew, hout, hm,
      e1, e2, e3, e4, e5⟩ := market_sell_accepted cfg w code0 q now h
    have hx' : w.eng.pool_x + q ≠ 0 := by linarith
    have hprod : (market_sell cfg w code0 q now).1.eng.pool_x *
        (market_sell cfg w code0 q now).1.eng.pool_y = w.eng.pool_k := by
      rw [e1, e2, mul_comm, div_mul_cancel₀ _ hx']
    refine ⟨by rw [hprod, e3], ?_, by rw [e1, e2, e4]⟩
    rw [hprod, hk, sub_self, abs_zero, zero_div]
    norm_num

/-- Witness for C5: the pre-trade invariant holds on the S1 pool and the
accepted buy satisfies the constant-product conclusions. -/
theorem C5_constant_product_witness :
    wStarted.eng.pool_k = wStarted.eng.pool_x * wStarted.eng.pool_y ∧
    (market_buy cfgW wStarted "alice1" 1000 7).2 = none ∧
    (market_buy cfgW wStarted "alice1" 1000 7).1.eng.pool_k =
      (market_buy cfgW wStarted "alice1" 1000 7).1.eng.pool_x *
        (market_buy cfgW wStarted "alice1" 1000 7).1.eng.pool_y := by
  have hk : wStarted.eng.pool_k = wStarted.eng.pool_x * wStarted.eng.pool_y := by
    norm_num [wStarted]
  have hs : pystrip "alice1" = "alice1" := by decide
  have hne : ("alice1" : String) ≠ "" := by decide
  have hacc : (market_buy cfgW wStarted "alice1" 1000 7).2 = none := by
    norm_num [market_buy, hs, hne, _margin_ok, _equity, wStarted, cfgW,
      playerW, abs_of_nonneg, abs_of_nonpos]
  exact ⟨hk, hacc,
    ((C5_constant_product cfgW wStarted "alice1" 1000 7 hk).1 hacc).1⟩

/-- C6: replaying the trade log [BUY 5@100 fee 0; SELL 8@110 fee 0] through
the PnL reconstructor yields avg = 110, realized = 50 and pos = −3, by the
reducing-long-then-flip rule. -/
theorem C6_replay_flip_example :
    _compute_stats_from_trades
      [⟨"p", 0, Side.BUY, 5, 100, 500, 0, 0, 0⟩,
       ⟨"p", 1, Side.SELL, 8, 110, 880, 0, 0, 0⟩] = (110, 50, -3) := by
  norm_num [_compute_stats_from_trades, statsStep]

/-- C8: every candle the system materialises is well-formed — each seeder row
has low ≤ open, close ≤ high by construction, and _touch_candle both keeps the
live candle well-formed and only ever writes a well-formed row to storage. -/
theorem C8_candles_well_formed :
    (∀ sp lc step : ℚ, ∀ ts : Int,
        wellFormedCandle (seedCandle sp lc step ts)) ∧
    (∀ (cs : Int) (cndl : Candle) (now_s : Int) (p : ℚ),
      wellFormedCandle cndl →
        wellFormedCandle (_touch_candle cs cndl now_s p).1 ∧
        ∀ r, (_touch_candle cs cndl now_s p).2 = some r →
          wellFormedCandle r) := by
  constructor
  · intro sp lc step ts
    unfold seedCandle wellFormedCandle
    exact ⟨min_le_left _ _, min_le_right _ _, le_max_left _ _, le_max_right _ _⟩
  · intro cs cndl now_s p hwf
    obtain ⟨h1, h2, h3, h4⟩ := hwf
    by_cases hb : now_s.fdiv (max 1 cs) * max 1 cs ≠ cndl.ts
    · simp only [_touch_candle, if_pos hb]
      exact ⟨⟨le_refl _, le_refl _, le_refl _, le_refl _⟩,
        fun r hr => by cases hr; exact ⟨h1, h2, h3, h4⟩⟩
    · simp only [_touch_candle, if_neg hb]
      refine ⟨⟨?_, ?_, ?_, ?_⟩, fun r hr => by cases hr⟩ <;>
        dsimp only [wellFormedCandle] <;> split_ifs <;> linarith

/-- Witness for C8: the flat candle 100/100/100/100 is well-formed and stays
well-formed through an in-place _touch_candle update. -/
theorem C8_candles_well_formed_witness :
    wellFormedCandle (⟨0, 100, 100, 100, 100⟩ : Candle) ∧
    wellFormedCandle (_touch_candle 1 ⟨0, 100, 100, 100, 100⟩ 0 101).1 := by
  have hwf : wellFormedCandle (⟨0, 100, 100, 100, 100⟩ : Candle) := by
    unfold wellFormedCandle
    norm_num
  exact ⟨hwf, (C8_candles_well_formed.2 1 ⟨0, 100, 100, 100, 100⟩ 0 101 hwf).1⟩

/-- C9: upsert_player creates the wallet with cash = initial_cash and pos = 0
on first join, updates only nick and updated_at on later joins (cash, pos and
created_at are preserved), and leaves every other code untouched. -/
theorem C9_join_idempotent_wallet (ps : String → Option Player)
    (code nick : String) (ic : ℚ) (now : Int) :
    (ps code = none →
      upsert_player ps code nick ic now code = some ⟨nick, ic, 0, now, now⟩) ∧
    (∀ p, ps code = some p →
      upsert_player ps code nick ic now code =
        some ⟨nick, p.cash, p.pos, p.created_at, now⟩) ∧
    (∀ c, c ≠ code → upsert_player ps code nick ic now c = ps c) := by
  refine ⟨fun h => ?_, fun p h => ?_, fun c hc => ?_⟩ <;>
    simp [upsert_player, *]

/-- Witness for C9: a fresh join creates the 10000-cash wallet; re-joining
with a new nick preserves cash, pos and created_at. -/
theorem C9_join_idempotent_wallet_witness :
    upsert_player (fun _ => none) "abcd" "Nick" 10000 5 "abcd" =
      some ⟨"Nick", 10000, 0, 5, 5⟩ ∧
    upsert_player (fun _ => some ⟨"Old", 7777, 2, 1, 1⟩) "abcd" "New" 10000 5
        "abcd" = some ⟨"New", 7777, 2, 1, 5⟩ := by
  exact ⟨(C9_join_idempotent_wallet (fun _ => none) "abcd" "Nick" 10000 5).1
      rfl,
    (C9_join_idempotent_wallet (fun _ => some ⟨"Old", 7777, 2, 1, 1⟩) "abcd"
      "New" 10000 5).2.1 ⟨"Old", 7777, 2, 1, 1⟩ rfl⟩

/-- C10: _touch_candle rolls over exactly when the computed bucket differs
from the live candle's timestamp, in either direction — the old candle is
persisted and a fresh flat candle opens at the bucket (which may be earlier
than the current candle_ts); only an equal bucket updates in place. -/
theorem C10_candle_rollover_on_any_bucket_change (cs : Int) (cndl : Candle)
    (now_s : Int) (p : ℚ) :
    (now_s.fdiv (max 1 cs) * max 1 cs ≠ cndl.ts →
      _touch_candle cs cndl now_s p =
        (⟨now_s.fdiv (max 1 cs) * max 1 cs, p, p, p, p⟩, some cndl)) ∧
    (now_s.fdiv (max 1 cs) * max 1 cs = cndl.ts →
      _touch_candle cs cndl now_s p =
        (⟨cndl.ts, cndl.open_,
          if p > cndl.high then p else cndl.high,
          if p < cndl.low then p else cndl.low, p⟩, none)) := by
  constructor <;> intro h <;> simp [_touch_candle, h]

/-- Witness for C10: a bucket strictly earlier than the live candle (3 < 10)
still rolls over, persisting the old candle and moving candle_ts backwards. -/
theorem C10_candle_rollover_witness :
    _touch_candle 1 ⟨10, 1, 1, 1, 1⟩ 3 2 =
      (⟨3, 2, 2, 2, 2⟩, some ⟨10, 1, 1, 1, 1⟩) :=
  (C10_candle_rollover_on_any_bucket_change 1 ⟨10, 1, 1, 1, 1⟩ 3 2).1
    (by decide)

/-- Bucketing is monotone for a positive timeframe. -/
lemma bucket_mono {tf : Int} (htf : 0 < tf) {a b : Int} (hab : a ≤ b) :
    a.fdiv tf * tf ≤ b.fdiv tf * tf := by
  have h0 : (0:Int) ≤ tf := le_of_lt htf
  rw [Int.fdiv_eq_ediv _ h0, Int.fdiv_eq_ediv _ h0]
  exact mul_le_mul_of_nonneg_right (Int.ediv_le_ediv htf hab) h0

/-- A bucket value is a fixed point of bucketing. -/
lemma bucket_aligned {tf : Int} (htf : 0 < tf) (a : Int) :
    (a.fdiv tf * tf).fdiv tf * tf = a.fdiv tf * tf := by
  rw [Int.mul_fdiv_cancel _ (ne_of_gt htf)]

/-- On a strictly ascending tail whose timestamps are already buckets, the
grouping loop reproduces the input. -/
lemma aggLoop_fixed (tf : Int) : ∀ (rs : List Candle) (hd : Candle),
    List.Chain (fun a b : Candle => a.ts < b.ts) hd rs →
    (∀ x ∈ rs, x.ts.fdiv tf * tf = x.ts) →
    aggLoop tf hd.ts hd.open_ hd.high hd.low hd.close rs = hd :: rs := by
  intro rs
  induction rs with
  | nil => intro hd _ _; rfl
  | cons r rs ih =>
    intro hd hch hdiv
    have hb : r.ts.fdiv tf * tf = r.ts :=
      hdiv r (List.mem_cons_self r rs)
    have hlt : hd.ts < r.ts := (List.chain_cons.mp hch).1
    simp only [aggLoop]
    rw [hb, if_pos (ne_of_gt hlt)]
    rw [ih r (List.chain_cons.mp hch).2
      (fun x hx => hdiv x (List.mem_cons_of_mem _ hx))]

/-- A strictly ascending list of already-bucketed rows is a fixed point of
aggregation. -/
lemma agg_fixed (tf : Int) (l : List Candle)
    (hch : l.Chain' (fun a b : Candle => a.ts < b.ts))
    (hdiv : ∀ x ∈ l, x.ts.fdiv (max 1 tf) * max 1 tf = x.ts) :
    _aggregate_candles l tf = l := by
  cases l with
  | nil => rfl
  | cons r rs =>
    show aggLoop (max 1 tf) (r.ts.fdiv (max 1 tf) * max 1 tf)
      r.open_ r.high r.low r.close rs = r :: rs
    rw [hdiv r (List.mem_cons_self r rs)]
    exact aggLoop_fixed (max 1 tf) rs r hch
      (fun x hx => hdiv x (List.mem_cons_of_mem _ hx))

/-- Invariant of the grouping loop: with nondecreasing buckets all at least
the open group's bucket, the output starts at the open bucket, has strictly
ascending timestamps, and all its timestamps are buckets. -/
lemma aggLoop_out (tf : Int) (htf : 0 < tf) :
    ∀ (rs : List Candle) (b : Int) (o h l c : ℚ),
      b.fdiv tf * tf = b →
      (rs.map (fun x => x.ts.fdiv tf * tf)).Pairwise (· ≤ ·) →
      (∀ x ∈ rs, b ≤ x.ts.fdiv tf * tf) →
      (∃ o' h' l' c' t, aggLoop tf b o h l c rs = ⟨b, o', h', l', c'⟩ :: t) ∧
      (aggLoop tf b o h l c rs).Chain' (fun a b : Candle => a.ts < b.ts) ∧
      (∀ x ∈ aggLoop tf b o h l c rs, x.ts.fdiv tf * tf = x.ts) := by
  intro rs
  induction rs with
  | nil =>
    intro b o h l c hb _ _
    refine ⟨⟨o, h, l, c, [], rfl⟩, List.chain'_singleton _, ?_⟩
    intro x hx
    simp only [aggLoop, List.mem_singleton] at hx
    rw [hx]
    exact hb
  | cons r rs ih =>
    intro b o h l c hb hpair hmono
    have hpt : (rs.map (fun x => x.ts.fdiv tf * tf)).Pairwise (· ≤ ·) :=
      (List.pairwise_cons.mp hpair).2
    have hph : ∀ x ∈ rs, r.ts.fdiv tf * tf ≤ x.ts.fdiv tf * tf := by
      intro x hx
      exact (List.pairwise_cons.mp hpair).1 _ (List.mem_map_of_mem _ hx)
    by_cases hne : r.ts.fdiv tf * tf ≠ b
    · have hble : b ≤ r.ts.fdiv tf * tf := hmono r (List.mem_cons_self r rs)
      have hblt : b < r.ts.fdiv tf * tf := lt_of_le_of_ne hble (Ne.symm hne)
      simp only [aggLoop]
      rw [if_pos hne]
      obtain ⟨o', h', l', c', t, hout⟩ :=
        (ih (r.ts.fdiv tf * tf) r.open_ r.high r.low r.close
          (bucket_aligned htf r.ts) hpt hph).1
      obtain ⟨-, hch, hdiv⟩ :=
        ih (r.ts.fdiv tf * tf) r.open_ r.high r.low r.close
          (bucket_aligned htf r.ts) hpt hph
      refine ⟨⟨o, h, l, c, _, rfl⟩, ?_, ?_⟩
      · rw [hout]
        rw [hout] at hch
        exact List.chain'_cons.mpr ⟨hblt, hch⟩
      · intro x hx
        rcases List.mem_cons.mp hx with hx | hx
        · rw [hx]
          exact hb
        · exact hdiv x hx
    · push_neg at hne
      simp only [aggLoop]
      rw [if_neg (by rw [hne]; exact fun hc => hc rfl)]
      exact ih b o (max h r.high) (min l r.low) r.close hb hpt
        (fun x hx => hne ▸ hph x hx)

/-- Output of aggregation over an ascending input: strictly ascending
timestamps, each a fixed point of bucketing. -/
lemma agg_out (tf : Int) (raw : List Candle)
    (hsort : raw.Pairwise (fun a b : Candle => a.ts < b.ts)) :
    (_aggregate_candles raw tf).Chain' (fun a b : Candle => a.ts < b.ts) ∧
    (∀ x ∈ _aggregate_candles raw tf,
      x.ts.fdiv (max 1 tf) * max 1 tf = x.ts) := by
  have htf : (0:Int) < max 1 tf := lt_of_lt_of_le one_pos (le_max_left 1 tf)
  cases raw with
  | nil => exact ⟨List.chain'_nil, fun x hx => absurd hx (List.not_mem_nil x)⟩
  | cons r rs =>
    have h := aggLoop_out (max 1 tf) htf rs (r.ts.fdiv (max 1 tf) * max 1 tf)
      r.open_ r.high r.low r.close (bucket_aligned htf r.ts)
      ((List.pairwise_cons.mp hsort).2.map _
        (fun a b hab => bucket_mono htf (le_of_lt hab)))
      (fun x hx => bucket_mono htf
        (le_of_lt ((List.pairwise_cons.mp hsort).1 x hx)))
    exact ⟨h.2.1, h.2.2⟩

/-- On a tail lying entirely in the open group's bucket, the grouping loop
emits one row: the carried open, the running max of highs, min of lows, and
the last close. -/
lemma aggLoop_single (tf : Int) : ∀ (rs : List Candle) (b : Int) (o h l c : ℚ),
    (∀ x ∈ rs, x.ts.fdiv tf * tf = b) →
    aggLoop tf b o h l c rs =
      [⟨b, o, rs.foldl (fun a r => max a r.high) h,
        rs.foldl (fun a r => min a r.low) l,
        rs.foldl (fun _ r => r.close) c⟩] := by
  intro rs
  induction rs with
  | nil => intro b o h l c _; rfl
  | cons r rs ih =>
    intro b o h l c hbk
    have hb : r.ts.fdiv tf * tf = b := hbk r (List.mem_cons_self r rs)
    simp only [aggLoop]
    rw [if_neg (by rw [hb]; exact fun hc => hc rfl)]
    exact ih b o (max h r.high) (min l r.low) r.close
      (fun x hx => hbk x (List.mem_cons_of_mem _ hx))

/-- C7: on an ascending list of 1-second candles, aggregating at tf = 1
returns the input unchanged; re-aggregating an aggregated list at the same tf
is the same as aggregating once; and a list lying in a single bucket collapses
to one row keyed by the bucket, carrying the first row's open, the running max
of highs, the running min of lows, and the last row's close. -/
theorem C7_aggregation_idempotent (tf : Int) (raw : List Candle)
    (hsort : raw.Pairwise (fun a b : Candle => a.ts < b.ts)) :
    _aggregate_candles raw 1 = raw ∧
    _aggregate_candles (_aggregate_candles raw tf) tf =
      _aggregate_candles raw tf ∧
    (∀ hd rs', raw = hd :: rs' →
      (∀ x ∈ raw, x.ts.fdiv (max 1 tf) * max 1 tf =
        hd.ts.fdiv (max 1 tf) * max 1 tf) →
      _aggregate_candles raw tf =
        [⟨hd.ts.fdiv (max 1 tf) * max 1 tf, hd.open_,
          rs'.foldl (fun a r => max a r.high) hd.high,
          rs'.foldl (fun a r => min a r.low) hd.low,
          rs'.foldl (fun _ r => r.close) hd.close⟩]) := by
  refine ⟨?_, ?_, ?_⟩
  · refine agg_fixed 1 raw hsort.chain' ?_
    intro x hx
    norm_num
  · obtain ⟨hch, hdiv⟩ := agg_out tf raw hsort
    exact agg_fixed tf _ hch hdiv
  · intro hd rs' heq hbkt
    subst heq
    show aggLoop (max 1 tf) (hd.ts.fdiv (max 1 tf) * max 1 tf)
      hd.open_ hd.high hd.low hd.close rs' = _
    exact aggLoop_single (max 1 tf) rs' _ hd.open_ hd.high hd.low hd.close
      (fun x hx => hbkt x (List.mem_cons_of_mem _ hx))

/-- Witness for C7: three ascending 1s candles, aggregated at tf = 1 and
re-aggregated at tf = 2. -/
theorem C7_aggregation_idempotent_witness :
    _aggregate_candles
      [⟨0, 10, 11, 9, 10⟩, ⟨1, 10, 12, 8, 11⟩, ⟨2, 11, 13, 10, 12⟩] 1 =
      [⟨0, 10, 11, 9, 10⟩, ⟨1, 10, 12, 8, 11⟩, ⟨2, 11, 13, 10, 12⟩] ∧
    _aggregate_candles
      (_aggregate_candles
        [⟨0, 10, 11, 9, 10⟩, ⟨1, 10, 12, 8, 11⟩, ⟨2, 11, 13, 10, 12⟩] 2) 2 =
      _aggregate_candles
        [⟨0, 10, 11, 9, 10⟩, ⟨1, 10, 12, 8, 11⟩, ⟨2, 11, 13, 10, 12⟩] 2 := by
  have h := C7_aggregation_idempotent 2
    [⟨0, 10, 11, 9, 10⟩, ⟨1, 10, 12, 8, 11⟩, ⟨2, 11, 13, 10, 12⟩]
    (by decide)
  exact ⟨h.1, h.2.1⟩
